import Mathlib

set_option maxRecDepth 8192

namespace Grh

/-!  Shallow embedding of the grh rule-replacement engine (rule.go,
replacer.go, hugo.go, loader.go).  Strings are modelled as lists of Unicode
scalar values, mirroring Go strings at rune granularity; every offset the
embedded code manipulates falls on a rune boundary, so rune indices stand in
for Go's byte offsets throughout. -/

abbrev Str := List Char

def str (s : String) : Str := s.toList

/-- Go `s[b:e]`. -/
def extract (s : Str) (b e : Nat) : Str := (s.drop b).take (e - b)

/-- Go `strings.Contains`. -/
def strContains : Str → Str → Bool
  | [], sub => sub.isEmpty
  | c :: cs, sub => sub.isPrefixOf (c :: cs) || strContains cs sub

/-- Go `strings.HasSuffix`. -/
def strHasSuffix (s suf : Str) : Bool := suf.isSuffixOf s

/-- Go `strings.HasPrefix`. -/
def strHasPre (s pre : Str) : Bool := pre.isPrefixOf s

/-- Worker for `strReplaceAll`; the fuel only bounds recursion depth and is
always sufficient (one unit per rune of the subject). -/
def strReplaceAllAux (old new : Str) : Nat → Str → Str
  | 0, rest => rest
  | fuel+1, rest =>
    if !old.isEmpty && old.isPrefixOf rest then
      new ++ strReplaceAllAux old new fuel (rest.drop old.length)
    else
      match rest with
      | [] => []
      | c :: cs => c :: strReplaceAllAux old new fuel cs

/-- Go `strings.ReplaceAll` (leftmost, non-overlapping, no rescan of the
inserted replacement). -/
def strReplaceAll (s old new : Str) : Str := strReplaceAllAux old new (s.length + 1) s

/-- Go `strings.Join`. -/
def strJoin : List Str → Str → Str
  | [], _ => []
  | [x], _ => x
  | x :: y :: rest, sep => x ++ sep ++ strJoin (y :: rest) sep

def natStr (n : Nat) : Str := (Nat.repr n).toList

/-- All ways of inserting `x` into a list. -/
def insertEverywhere (x : α) : List α → List (List α)
  | [] => [[x]]
  | y :: ys => (x :: y :: ys) :: (insertEverywhere x ys).map (fun l => y :: l)

/-- All permutations of a list (structurally recursive, so it evaluates
inside the kernel); used to quantify over the unspecified iteration order
of a Go map. -/
def allPerms : List α → List (List α)
  | [] => [[]]
  | x :: xs => (allPerms xs).flatMap (insertEverywhere x)

/-! ### Regular expressions

Go's `regexp` (RE2) has leftmost-first match semantics for the non-POSIX
API used by this repository: the match starts as early as possible and,
among matches at that start, is the one a backtracking search would find
first.  A CPS backtracking matcher therefore implements exactly the
observable semantics of the patterns involved. -/

inductive CCItem where
  | ch (c : Char)
  | rng (lo hi : Char)
deriving DecidableEq, Repr

inductive Re where
  | eps
  | lit (c : Char)
  | cls (neg : Bool) (items : List CCItem)
  | dot (dotAll : Bool)
  | cat (a b : Re)
  | alt (a b : Re)
  | star (lazy : Bool) (a : Re)
  | group (idx : Nat) (a : Re)
  | bol (multi : Bool)
  | eol (multi : Bool)
deriving DecidableEq, Repr

def reSize : Re → Nat
  | .eps | .lit _ | .cls _ _ | .dot _ | .bol _ | .eol _ => 1
  | .cat a b | .alt a b => reSize a + reSize b + 1
  | .star _ a | .group _ a => reSize a + 1

def ccMatch (items : List CCItem) (c : Char) : Bool :=
  items.any fun it =>
    match it with
    | .ch d => c == d
    | .rng lo hi => decide (lo ≤ c) && decide (c ≤ hi)

/-- Capture triples `(group index, start, stop)`; the most recent write is first. -/
abbrev Caps := List (Nat × Nat × Nat)

/-- Backtracking matcher in continuation-passing style.  The fuel only
bounds recursion depth: every caller supplies more than the match search can
consume, so exhaustion never occurs on the inputs considered.  Alternation
prefers its left branch, greedy stars prefer iterating and lazy stars prefer
stopping, with an emptiness guard on star iterations, matching Go. -/
def mrun (s : Str) : Nat → Re → Nat → Caps → (Nat → Caps → Option (Nat × Caps)) → Option (Nat × Caps)
  | 0, _, _, _, _ => none
  | _+1, .eps, pos, cps, k => k pos cps
  | _+1, .lit c, pos, cps, k =>
    match s.get? pos with
    | some d => if d == c then k (pos+1) cps else none
    | none => none
  | _+1, .cls neg items, pos, cps, k =>
    match s.get? pos with
    | some d => if ccMatch items d != neg then k (pos+1) cps else none
    | none => none
  | _+1, .dot da, pos, cps, k =>
    match s.get? pos with
    | some d => if da || d != '\n' then k (pos+1) cps else none
    | none => none
  | fuel+1, .cat a b, pos, cps, k =>
    mrun s fuel a pos cps (fun p cp => mrun s fuel b p cp k)
  | fuel+1, .alt a b, pos, cps, k =>
    match mrun s fuel a pos cps k with
    | some r => some r
    | none => mrun s fuel b pos cps k
  | fuel+1, .star lz a, pos, cps, k =>
    if lz then
      match k pos cps with
      | some r => some r
      | none => mrun s fuel a pos cps (fun p cp => if pos < p then mrun s fuel (.star lz a) p cp k else none)
    else
      match mrun s fuel a pos cps (fun p cp => if pos < p then mrun s fuel (.star lz a) p cp k else none) with
      | some r => some r
      | none => k pos cps
  | fuel+1, .group i a, pos, cps, k =>
    mrun s fuel a pos cps (fun p cp => k p ((i, pos, p) :: cp))
  | _+1, .bol m, pos, cps, k =>
    if pos == 0 || (m && s.get? (pos - 1) == some '\n') then k pos cps else none
  | _+1, .eol m, pos, cps, k =>
    if pos == s.length || (m && s.get? pos == some '\n') then k pos cps else none

def matchFuel (re : Re) (s : Str) : Nat := (s.length + 2) * (reSize re + 2)

/-- Leftmost match starting at or after `pos` (the second `Nat` argument);
the first `Nat` is a countdown over candidate start positions. -/
def findAux (re : Re) (s : Str) : Nat → Nat → Option (Nat × Nat × Caps)
  | 0, _ => none
  | n+1, pos =>
    match mrun s (matchFuel re s) re pos [] (fun p cp => some (p, cp)) with
    | some (e, cps) => some (pos, e, cps)
    | none => findAux re s n (pos + 1)

def findFirst (re : Re) (s : Str) : Option (Nat × Nat × Caps) :=
  findAux re s (s.length + 1) 0

/-- Go `Regexp.MatchString`. -/
def matchB (re : Re) (s : Str) : Bool := (findFirst re s).isSome

/-- Successive non-overlapping leftmost matches, as Go `FindAll...(s, -1)`.
(After an empty match the scan advances one rune; none of the repository's
patterns can match the empty string, so the two engines agree.) -/
def findAllAux (re : Re) (s : Str) : Nat → Nat → List (Nat × Nat × Caps)
  | 0, _ => []
  | n+1, pos =>
    if pos > s.length then []
    else
      match findAux re s (s.length + 1 - pos) pos with
      | none => []
      | some (b, e, cps) => (b, e, cps) :: findAllAux re s n (if b < e then e else e + 1)

/-- Go `Regexp.FindAllStringSubmatchIndex(s, -1)`. -/
def findAllSub (re : Re) (s : Str) : List (Nat × Nat × Caps) :=
  findAllAux re s (s.length + 2) 0

/-- Go `Regexp.FindAllStringIndex(s, -1)`. -/
def findAllIdx (re : Re) (s : Str) : List (Nat × Nat) :=
  (findAllSub re s).map fun m => (m.1, m.2.1)

def capGroup (cps : Caps) (i : Nat) : Option (Nat × Nat) :=
  match cps.find? (fun t => t.1 == i) with
  | some (_, b, e) => some (b, e)
  | none => none

def spliceAux (s : Str) (rep : Str) : List (Nat × Nat) → Nat → Str
  | [], last => s.drop last
  | (b, e) :: rest, last => extract s last b ++ rep ++ spliceAux s rep rest e

/-- Go `Regexp.ReplaceAllString` for a replacement without `$` references
(every `expected` value appearing in the claims is reference-free, where
the two coincide). -/
def regexReplaceAll (re : Re) (s rep : Str) : Str :=
  spliceAux s rep (findAllIdx re s) 0

/-- Worker for `regexReplaceAllFunc`. -/
def replaceFuncAux (s : Str) (f : σ → Str → σ × Str) : List (Nat × Nat) → σ → Nat → σ × Str
  | [], st, last => (st, s.drop last)
  | (b, e) :: rest, st, last =>
    let p := f st (extract s b e)
    let q := replaceFuncAux s f rest p.1 e
    (q.1, extract s last b ++ p.2 ++ q.2)

/-- Go `Regexp.ReplaceAllStringFunc`, threading explicit state through the
callback (the Go callbacks close over a mutable counter and map). -/
def regexReplaceAllFunc (re : Re) (s : Str) (st : σ) (f : σ → Str → σ × Str) : σ × Str :=
  replaceFuncAux s f (findAllIdx re s) st 0

/-! ### A parser for the pattern strings appearing in the source

The repository compiles its patterns from string literals and from strings
assembled at run time (`strings.Join`, `generateCaseInsensitivePattern`,
the `$`-anchoring of `ignorePatternBefore`).  The subset parsed here covers
exactly the constructs those strings use; anything else is a parse error,
standing in for `regexp.Compile` failure. -/

def escChar (c : Char) : Option Char :=
  if c == 'n' then some '\n'
  else if c == 't' then some '\t'
  else if c == 'f' then some (Char.ofNat 12)
  else if c == 'r' then some '\r'
  else if c == 'v' then some (Char.ofNat 11)
  else if c.isAlphanum then none
  else some c

def parseClsItems : Nat → Str → Option (List CCItem × Str)
  | 0, _ => none
  | fuel+1, s =>
    match s with
    | [] => none
    | ']' :: rest => some ([], rest)
    | '\\' :: c :: rest =>
      match escChar c with
      | none => none
      | some d =>
        match parseClsItems fuel rest with
        | some (items, r2) => some (CCItem.ch d :: items, r2)
        | none => none
    | c :: '-' :: d :: rest =>
      if d == ']' then
        match parseClsItems fuel ('-' :: d :: rest) with
        | some (items, r2) => some (CCItem.ch c :: items, r2)
        | none => none
      else
        match parseClsItems fuel rest with
        | some (items, r2) => some (CCItem.rng c d :: items, r2)
        | none => none
    | c :: rest =>
      match parseClsItems fuel rest with
      | some (items, r2) => some (CCItem.ch c :: items, r2)
      | none => none

structure PFlags where
  dotAll : Bool
  multi : Bool
deriving Repr

inductive PMode where
  | palt
  | pseq
  | patom
deriving Repr

def applyQuant (r : Re) (s : Str) : Re × Str :=
  match s with
  | '*' :: '?' :: rest => (.star true r, rest)
  | '*' :: rest => (.star false r, rest)
  | '+' :: '?' :: rest => (.cat r (.star true r), rest)
  | '+' :: rest => (.cat r (.star false r), rest)
  | '?' :: '?' :: rest => (.alt .eps r, rest)
  | '?' :: rest => (.alt r .eps, rest)
  | _ => (r, s)

/-- Recursive-descent parser (alternation / sequence / atom selected by the
mode tag); returns the expression, the next capture-group number and the
unconsumed input.  Go's `\s` is the ASCII class `[\t\n\f\r ]`. -/
def parseM : Nat → PMode → PFlags → Nat → Str → Option (Re × Nat × Str)
  | 0, _, _, _, _ => none
  | fuel+1, .palt, fl, g, s =>
    match parseM fuel .pseq fl g s with
    | none => none
    | some (r1, g1, rest1) =>
      match rest1 with
      | '|' :: rest2 =>
        match parseM fuel .palt fl g1 rest2 with
        | none => none
        | some (r2, g2, rest3) => some (.alt r1 r2, g2, rest3)
      | _ => some (r1, g1, rest1)
  | fuel+1, .pseq, fl, g, s =>
    match s with
    | [] => some (.eps, g, [])
    | '|' :: _ => some (.eps, g, s)
    | ')' :: _ => some (.eps, g, s)
    | _ =>
      match parseM fuel .patom fl g s with
      | none => none
      | some (r1, g1, rest1) =>
        let rq := applyQuant r1 rest1
        match parseM fuel .pseq fl g1 rq.2 with
        | none => none
        | some (r2, g2, rest2) => some (.cat rq.1 r2, g2, rest2)
  | fuel+1, .patom, fl, g, s =>
    match s with
    | [] => none
    | '(' :: '?' :: ':' :: rest =>
      match parseM fuel .palt fl g rest with
      | some (r, g1, ')' :: rest2) => some (r, g1, rest2)
      | _ => none
    | '(' :: rest =>
      match parseM fuel .palt fl (g+1) rest with
      | some (r, g1, ')' :: rest2) => some (.group g r, g1, rest2)
      | _ => none
    | '[' :: '^' :: rest =>
      match parseClsItems (rest.length + 2) rest with
      | some (items, rest2) => some (.cls true items, g, rest2)
      | none => none
    | '[' :: rest =>
      match parseClsItems (rest.length + 2) rest with
      | some (items, rest2) => some (.cls false items, g, rest2)
      | none => none
    | '\\' :: 's' :: rest =>
      some (.cls false [.ch '\t', .ch '\n', .ch (Char.ofNat 12), .ch '\r', .ch ' '], g, rest)
    | '\\' :: c :: rest =>
      match escChar c with
      | some d => some (.lit d, g, rest)
      | none => none
    | '.' :: rest => some (.dot fl.dotAll, g, rest)
    | '^' :: rest => some (.bol fl.multi, g, rest)
    | '$' :: rest => some (.eol fl.multi, g, rest)
    | '*' :: _ => none
    | '+' :: _ => none
    | '?' :: _ => none
    | c :: rest => some (.lit c, g, rest)

/-- Leading `(?s)` / `(?m)` flag groups (the only positions where flags
occur in the repository's patterns). -/
def stripFlagsAux : Nat → PFlags → Str → PFlags × Str
  | 0, fl, s => (fl, s)
  | fuel+1, fl, s =>
    match s with
    | '(' :: '?' :: 's' :: ')' :: rest => stripFlagsAux fuel { fl with dotAll := true } rest
    | '(' :: '?' :: 'm' :: ')' :: rest => stripFlagsAux fuel { fl with multi := true } rest
    | _ => (fl, s)

/-- Go `regexp.Compile`, on the subset of syntax the repository uses. -/
def parseRe (p : Str) : Option Re :=
  let fr := stripFlagsAux 4 ⟨false, false⟩ p
  match parseM (4 * (p.length + 4)) .palt fr.1 1 fr.2 with
  | some (r, _, []) => some r
  | _ => none

/-- Go `regexp.MustCompile` (all its call sites in the source receive
patterns that compile). -/
def mustRe (p : Str) : Re := (parseRe p).getD .eps

/-! ### hugo.go — shortcode and Markdown span protection

Pattern strings are transcribed verbatim from `NewHugoProcessor` and
`FindShortcodes`; a literal brace is written `\x7b` / `\x7d` in the Lean
string literals below. -/

structure HugoShortcode where
  sctype : Str
  name : Str
  content : Str
  position : Nat
  length : Nat
deriving DecidableEq, Repr

def pairedS : Str := str ("paired")

def selfClosingS : Str := str ("self-closing")

/-- Paired shortcode start tag, angle form (argument of `findPairedShortcodes`). -/
def pairedStartPat : Str := str ("\\\x7b\\\x7b<\\s*([a-zA-Z0-9_-]+)\\s*(?:[^>]*)?\\s*>\\\x7d\\\x7d")

/-- Paired shortcode end tag, angle form. -/
def pairedEndPat : Str := str ("\\\x7b\\\x7b<\\s*/([a-zA-Z0-9_-]+)\\s*>\\\x7d\\\x7d")

/-- Paired shortcode start tag, percent form. -/
def pairedStartAltPat : Str := str ("\\\x7b\\\x7b%\\s*([a-zA-Z0-9_-]+)\\s*(?:[^%]*)?\\s*%\\\x7d\\\x7d")

/-- Paired shortcode end tag, percent form. -/
def pairedEndAltPat : Str := str ("\\\x7b\\\x7b%\\s*/([a-zA-Z0-9_-]+)\\s*%\\\x7d\\\x7d")

def selfClosingShortcodeRegex : Re :=
  mustRe (str ("\\\x7b\\\x7b<\\s*([a-zA-Z0-9_-]+)(?:\\s+[^>]*)?\\s*/?>\\\x7d\\\x7d"))

def selfClosingShortcodeRegexAlt : Re :=
  mustRe (str ("\\\x7b\\\x7b%\\s*([a-zA-Z0-9_-]+)(?:\\s+[^%]*)?\\s*/?%\\\x7d\\\x7d"))

def codeBlockRegex : Re := mustRe (str ("(?s)```[^\\n]*\\n(.*?)```"))

def codeSpanRegex : Re := mustRe (str ("`([^`\n]+)`"))

def linkRegex : Re := mustRe (str ("\\[([^\\]]*)\\]\\(([^)]+)\\)"))

def refLinkRegex : Re := mustRe (str ("(?m)^\\s*\\[([^\\]]+)\\]:\\s*(.+)$"))

def refLinkUseRegex : Re := mustRe (str ("\\[([^\\]]*)\\]\\[([^\\]]+)\\]"))

/-- Model of `hasIntermediateStartTag`: is there a same-name start tag strictly
between `start` and `endd`? -/
def hasIntermediateStartTag (text : Str) (start endd : Nat) (name : Str) (pat : Str) : Bool :=
  if start ≥ endd || endd > text.length then false
  else
    (findAllSub (mustRe pat) (extract text start endd)).any fun m =>
      match capGroup m.2.2 1 with
      | some p => extract text (start + p.1) (start + p.2) == name
      | none => false

/-- Inner loop of `findPairedShortcodes`: the first end-tag match at or
after `startEnd` whose name equals `startName` and with no intermediate
same-name start tag; entries without a name group are skipped. -/
def firstPairEnd (text : Str) (startPat : Str) (startEnd : Nat) (startName : Str) :
    List (Nat × Nat × Caps) → Option (Nat × Nat)
  | [] => none
  | em :: rest =>
    match capGroup em.2.2 1 with
    | none => firstPairEnd text startPat startEnd startName rest
    | some p =>
      let endPos := em.1
      let endEnd := em.2.1
      let endName := extract text p.1 p.2
      if decide (startEnd ≤ endPos) && startName == endName
          && !(hasIntermediateStartTag text startEnd endPos startName startPat) then
        some (endPos, endEnd)
      else firstPairEnd text startPat startEnd startName rest

/-- Model of `findPairedShortcodes`: pair independently scanned start and end tags. -/
def findPairedShortcodes (text : Str) (startPat endPat : Str) : List HugoShortcode :=
  (findAllSub (mustRe startPat) text).foldl
    (fun acc sm =>
      match capGroup sm.2.2 1 with
      | none => acc
      | some p =>
        let startPos := sm.1
        let startEnd := sm.2.1
        let startName := extract text p.1 p.2
        match firstPairEnd text startPat startEnd startName (findAllSub (mustRe endPat) text) with
        | none => acc
        | some q =>
          acc ++ [{ sctype := pairedS, name := startName,
                    content := extract text startEnd q.1,
                    position := startPos, length := q.2 - startPos }])
    []

def isPartOfPairedShortcode (_text : Str) (pos : Nat) (scs : List HugoShortcode) : Bool :=
  scs.any fun sc =>
    sc.sctype == pairedS && decide (sc.position ≤ pos) && decide (pos < sc.position + sc.length)

/-- One self-closing scan pass of `FindShortcodes`: matches falling inside
an already identified paired span are discarded. -/
def addSelfClosing (text : Str) (re : Re) (init : List HugoShortcode) : List HugoShortcode :=
  (findAllSub re text).foldl
    (fun acc m =>
      match capGroup m.2.2 1 with
      | none => acc
      | some p =>
        if isPartOfPairedShortcode text m.1 acc then acc
        else
          acc ++ [{ sctype := selfClosingS, name := extract text p.1 p.2, content := [],
                    position := m.1, length := m.2.1 - m.1 }])
    init

/-- Model of `FindShortcodes` (manual pairing variant, the one `PreserveShortcodes`
calls): paired angle form, paired percent form, then the two self-closing
scans. -/
def findShortcodes (text : Str) : List HugoShortcode :=
  let scs := findPairedShortcodes text pairedStartPat pairedEndPat
  let scs := scs ++ findPairedShortcodes text pairedStartAltPat pairedEndAltPat
  let scs := addSelfClosing text selfClosingShortcodeRegex scs
  addSelfClosing text selfClosingShortcodeRegexAlt scs

def insertDescByPos (sc : HugoShortcode) : List HugoShortcode → List HugoShortcode
  | [] => [sc]
  | x :: xs => if x.position < sc.position then sc :: x :: xs else x :: insertDescByPos sc xs

/-- Descending sort by start position.  The source runs an in-place
exchange sort; the spans produced by `findShortcodes` have pairwise
distinct start positions, for which every descending sort produces the
same strictly descending sequence. -/
def sortDescByPos : List HugoShortcode → List HugoShortcode
  | [] => []
  | x :: xs => insertDescByPos x (sortDescByPos xs)

/-- Go `fmt.Sprintf("___<kind>%d___", n)`. -/
def phToken (kind : Str) (n : Nat) : Str := str ("___") ++ kind ++ natStr n ++ str ("___")

/-- Counter plus placeholder map.  The Go map is modelled as an association
list in insertion order; `RestoreShortcodes` iterates the Go map in an
unspecified order, so theorems about restoration quantify over orderings
where that matters. -/
abbrev PhState := Nat × List (Str × Str)

def maskPass (re : Re) (kind : Str) (st : PhState × Str) : PhState × Str :=
  regexReplaceAllFunc re st.2 st.1 (fun s m =>
    let c := s.1 + 1
    let token := phToken kind c
    ((c, s.2 ++ [(token, m)]), token))

/-- Model of `PreserveShortcodes`: mask code blocks, code spans, inline links,
reference-link uses, reference-link definitions, then all detected
shortcodes back-to-front by descending start position. -/
def preserveShortcodes (text : Str) : Str × List (Str × Str) :=
  let s1 := maskPass codeBlockRegex (str ("MARKDOWN_CODE_BLOCK_")) ((0, []), text)
  let s2 := maskPass codeSpanRegex (str ("MARKDOWN_CODE_SPAN_")) s1
  let s3 := maskPass linkRegex (str ("MARKDOWN_LINK_")) s2
  let s4 := maskPass refLinkUseRegex (str ("MARKDOWN_REF_LINK_USE_")) s3
  let s5 := maskPass refLinkRegex (str ("MARKDOWN_REF_LINK_")) s4
  let scs := sortDescByPos (findShortcodes s5.2)
  let fin := scs.foldl
    (fun (acc : PhState × Str) sc =>
      if sc.position + sc.length ≤ acc.2.length then
        let c := acc.1.1 + 1
        let token := if sc.sctype == pairedS then phToken (str ("HUGO_SHORTCODE_PAIRED_")) c
                     else phToken (str ("HUGO_SHORTCODE_SELF_")) c
        let orig := extract acc.2 sc.position (sc.position + sc.length)
        ((c, acc.1.2 ++ [(token, orig)]),
          acc.2.take sc.position ++ token ++ acc.2.drop (sc.position + sc.length))
      else acc)
    s5
  (fin.2, fin.1.2)

/-- Model of `RestoreShortcodes`: literal lookup-and-substitute of every stored
placeholder, in the order of the list passed in (the Go map iteration
order is an arbitrary permutation of the insertion order). -/
def restoreShortcodes (text : Str) (phs : List (Str × Str)) : Str :=
  phs.foldl (fun acc p => strReplaceAll acc p.1 p.2) text

/-! ### rule.go — rule compilation and single-rule replacement -/

structure Rule where
  expected : Str
  pattern : Str
  patterns : List Str
  regexpMustEmpty : Str
  specs : List (Str × Str)
  ignorePatternBefore : Str
  compiledRegexp : Option Re
  compiledIgnoreBefore : Option Re
deriving DecidableEq, Repr

/-- A rule as it comes out of YAML with only `expected` set. -/
def mkRule (expected : Str) : Rule :=
  { expected := expected, pattern := [], patterns := [], regexpMustEmpty := [],
    specs := [], ignorePatternBefore := [], compiledRegexp := none, compiledIgnoreBefore := none }

/-- Go `regexp.QuoteMeta` on one character. -/
def quoteMetaChar (c : Char) : Str :=
  if (str ("\\.+*?()|[]\x7b\x7d^$")).contains c then ['\\', c] else [c]

def quoteMeta (s : Str) : Str := s.foldl (fun acc c => acc ++ quoteMetaChar c) []

/-- Model of `toFullwidthAlphabet`. -/
def toFullwidthAlphabet (s : Str) : Str :=
  s.map fun c =>
    if decide ('A' ≤ c) && decide (c ≤ 'Z') then Char.ofNat ('Ａ'.toNat + (c.toNat - 'A'.toNat))
    else if decide ('a' ≤ c) && decide (c ≤ 'z') then Char.ofNat ('ａ'.toNat + (c.toNat - 'a'.toNat))
    else c

/-- Model of `toHalfwidthAlphabet`. -/
def toHalfwidthAlphabet (s : Str) : Str :=
  s.map fun c =>
    if decide ('Ａ' ≤ c) && decide (c ≤ 'Ｚ') then Char.ofNat ('A'.toNat + (c.toNat - 'Ａ'.toNat))
    else if decide ('ａ' ≤ c) && decide (c ≤ 'ｚ') then Char.ofNat ('a'.toNat + (c.toNat - 'ａ'.toNat))
    else c

def asciiLetter (c : Char) : Bool :=
  (decide ('A' ≤ c) && decide (c ≤ 'Z')) || (decide ('a' ≤ c) && decide (c ≤ 'z'))

def fullwidthLetter (c : Char) : Bool :=
  (decide ('Ａ' ≤ c) && decide (c ≤ 'Ｚ')) || (decide ('ａ' ≤ c) && decide (c ≤ 'ｚ'))

/-- Model of `generateCaseInsensitivePattern`: one four-way class per Latin letter
(ASCII upper/lower plus their full-width variants), metacharacter-escaped
literal for everything else.  Go's `strings.ToUpper` / `ToLower` act
per rune, agreeing with `Char.toUpper` / `Char.toLower` on the ASCII
letters they receive here. -/
def generateCaseInsensitivePattern (expected : Str) : Str :=
  expected.foldl
    (fun acc c =>
      if asciiLetter c then
        let upper := [c.toUpper]
        let lower := [c.toLower]
        acc ++ ['['] ++ upper ++ lower ++ toFullwidthAlphabet upper ++ toFullwidthAlphabet lower ++ [']']
      else if fullwidthLetter c then
        let hw := toHalfwidthAlphabet [c]
        let upper := hw.map Char.toUpper
        let lower := hw.map Char.toLower
        acc ++ ['['] ++ upper ++ lower ++ toFullwidthAlphabet upper ++ toFullwidthAlphabet lower ++ [']']
      else acc ++ quoteMeta [c])
    []

/-- The `$`-anchoring applied to `ignorePatternBefore` inside
`CompilePattern`: append an end anchor unless the pattern already ends in
`$`, contains `$`, or contains `|`. -/
def anchorIgnorePat (p : Str) : Str :=
  if !(strHasSuffix p (str ("$"))) && !(strContains p (str ("$"))) && !(strContains p (str ("|"))) then
    p ++ str ("$")
  else p

/-- Model of `CompilePattern`.  Returned errors mirror the Go error paths (the Go
method mutates its receiver; here success returns the updated rule and an
error leaves the caller's rule untouched, hence without a compiled
matcher). -/
def compilePattern (r : Rule) : Except Str Rule :=
  let patE : Except Str Str :=
    if r.pattern ≠ [] then .ok r.pattern
    else if r.patterns ≠ [] then .ok (strJoin r.patterns (str ("|")))
    else if r.expected ≠ [] then .ok (generateCaseInsensitivePattern r.expected)
    else .error (str ("no pattern or expected value specified"))
  match patE with
  | .error e => .error e
  | .ok pat0 =>
    let pat := if strHasPre pat0 (str ("/")) && strHasSuffix pat0 (str ("/")) then
                 (pat0.drop 1).dropLast
               else pat0
    match parseRe pat with
    | none => .error (str ("failed to compile pattern"))
    | some re =>
      if r.ignorePatternBefore ≠ [] then
        match parseRe (anchorIgnorePat r.ignorePatternBefore) with
        | none => .error (str ("failed to compile ignorePatternBefore"))
        | some ire => .ok { r with compiledRegexp := some re, compiledIgnoreBefore := some ire }
      else .ok { r with compiledRegexp := some re }

/-- Loop body of the `compiledIgnoreBefore` branch of `Rule.ReplaceString`:
the builder string so far and `lastIndex` are the state; `contextBefore`
is `text[:startIndex]`, the entire prefix up to the candidate match. -/
def ignoreStep (ig : Re) (expected : Str) (text : Str) (st : Str × Nat) (m : Nat × Nat) : Str × Nat :=
  let sb := st.1 ++ extract text st.2 m.1
  let contextBefore := text.take m.1
  if matchB ig contextBefore then (sb ++ extract text m.1 m.2, m.2)
  else (sb ++ expected, m.2)

/-- Model of `Rule.ReplaceString`: no compiled matcher means the text passes
through; with a context-exclusion matcher, one left-to-right pass keeps a
match whenever the exclusion matches the entire prefix of the buffer
before the match; otherwise plain replace-all. -/
def ruleReplaceString (r : Rule) (text : Str) : Str :=
  match r.compiledRegexp with
  | none => text
  | some re =>
    match r.compiledIgnoreBefore with
    | some ig =>
      let acc := (findAllIdx re text).foldl (ignoreStep ig r.expected text) ([], 0)
      acc.1 ++ text.drop acc.2
    | none => regexReplaceAll re text r.expected

/-! ### loader.go — merging configurations

Import resolution (`LoadConfigWithImports`) is file I/O plus recursion
into `LoadConfig` and ends in `MergeConfigs`; the claims concern only the
merge, so only `Config` and `MergeConfigs` are embedded. -/

structure Config where
  version : Int
  rules : List Rule
  sourcePaths : List Str
deriving DecidableEq, Repr

/-- Go map insertion: replace the entry with this key in place, or append
a fresh one. -/
def mapInsert (m : List (Str × Rule)) (k : Str) (v : Rule) : List (Str × Rule) :=
  match m with
  | [] => [(k, v)]
  | (k', v') :: rest => if k' = k then (k', v) :: rest else (k', v') :: mapInsert rest k v

def mapLookup (m : List (Str × Rule)) (k : Str) : Option Rule :=
  match m with
  | [] => none
  | (k', v) :: rest => if k' = k then some v else mapLookup rest k

/-- Model of `MergeConfigs`: version from the first config, source paths
concatenated, rules deduplicated by `expected` with later entries
overriding earlier ones.  The Go map is modelled as an association list;
Go enumerates the merged map in an unspecified order, so only
enumeration-order-independent facts (cardinality, which rule a given
`expected` maps to) are meaningful — exactly the facts the claims state. -/
def mergeConfigs (configs : List Config) : Config :=
  match configs with
  | [] => { version := 0, rules := [], sourcePaths := [] }
  | c0 :: _ =>
    let sourcePaths := configs.foldl (fun acc c => acc ++ c.sourcePaths) []
    let ruleMap := configs.foldl (fun m c => c.rules.foldl (fun m' r => mapInsert m' r.expected r) m) []
    { version := c0.version, rules := ruleMap.map Prod.snd, sourcePaths := sourcePaths }

/-! ### replacer.go — the ordered application pipeline -/

structure Change where
  ruleIndex : Nat
  rule : Rule
  fromText : Str
  toText : Str
  position : Nat
deriving DecidableEq, Repr

structure ReplaceResult where
  original : Str
  result : Str
  changed : Bool
  changes : List Change
deriving DecidableEq, Repr

structure RState where
  working : Str
  changed : Bool
  changes : List Change
deriving DecidableEq, Repr

/-- One iteration of the rule loop in `Replacer.ReplaceString`: a rule
without a compiled matcher is skipped (the Go code logs and `continue`s);
otherwise the rule is applied and, when the buffer changed, a `Change` is
appended and the changed flag set.  (`regexpMustEmpty` only triggers a
debug log in the source — no behavioural effect to model.) -/
def replacerStep (st : RState) (ir : Nat × Rule) : RState :=
  if ir.2.compiledRegexp = none then st
  else if st.working ≠ ruleReplaceString ir.2 st.working then
    { working := ruleReplaceString ir.2 st.working, changed := true,
      changes := st.changes ++ [{ ruleIndex := ir.1, rule := ir.2,
                                  fromText := st.working,
                                  toText := ruleReplaceString ir.2 st.working, position := 0 }] }
  else st

/-- Model of `Replacer.ReplaceString`: protect, run every rule in order over the
protected buffer, restore. -/
def replacerReplaceString (cfg : Config) (text : Str) : ReplaceResult :=
  let pr := preserveShortcodes text
  let st := (cfg.rules.enum).foldl replacerStep { working := pr.1, changed := false, changes := [] }
  { original := text, result := restoreShortcodes st.working pr.2,
    changed := st.changed, changes := st.changes }

/-- The same pipeline with the matcher-less rules dropped from the
enumerated rule list (indices of the surviving rules unchanged): the
skip-behaviour reference point for the claims about rules that reach
runtime uncompiled. -/
def replacerReplaceStringFiltered (cfg : Config) (text : Str) : ReplaceResult :=
  let pr := preserveShortcodes text
  let st := ((cfg.rules.enum).filter (fun p => p.2.compiledRegexp.isSome)).foldl replacerStep
              { working := pr.1, changed := false, changes := [] }
  { original := text, result := restoreShortcodes st.working pr.2,
    changed := st.changed, changes := st.changes }

/-- Modelled from the spec (§4.3): "scan all match positions in the
current buffer; for each match, evaluate the exclusion matcher against
the substring of the buffer from the start up to the match's start
offset; if it matches, leave that occurrence unchanged; otherwise
substitute it; reassemble the buffer left-to-right from these segment
decisions in a single pass."  Reference rendering used to state that the
implementation's fold computes exactly this. -/
def prefixExclAssemble (ig : Re) (expected : Str) (text : Str) : List (Nat × Nat) → Nat → Str
  | [], last => text.drop last
  | (b, e) :: rest, last =>
    extract text last b ++
      (if matchB ig (text.take b) then extract text b e else expected) ++
      prefixExclAssemble ig expected text rest e

def prefixExclusionSpec (re ig : Re) (expected : Str) (text : Str) : Str :=
  prefixExclAssemble ig expected text (findAllIdx re text) 0

/-! ### Supporting lemmas -/

theorem snd_mem_enumFrom : ∀ (l : List α) (n : Nat) (p : Nat × α), p ∈ l.enumFrom n → p.2 ∈ l
  | [], _, _, hp => absurd hp (List.not_mem_nil _)
  | x :: xs, n, p, hp => by
    rcases List.mem_cons.mp hp with h1 | h2
    · subst h1
      exact List.mem_cons_self _ _
    · exact List.mem_cons_of_mem _ (snd_mem_enumFrom xs (n + 1) p h2)

theorem snd_mem_enum (l : List α) (p : Nat × α) (hp : p ∈ l.enum) : p.2 ∈ l :=
  snd_mem_enumFrom l 0 p hp

/-- A rule without a compiled matcher is a fixed point of the loop body. -/
theorem replacerStep_skip (st : RState) (ir : Nat × Rule) (h : ir.2.compiledRegexp = none) :
    replacerStep st ir = st := by
  unfold replacerStep
  rw [if_pos h]

theorem foldl_replacerStep_filter (l : List (Nat × Rule)) (st : RState) :
    (l.filter (fun p => p.2.compiledRegexp.isSome)).foldl replacerStep st =
      l.foldl replacerStep st := by
  induction l generalizing st with
  | nil => rfl
  | cons hd tl ih =>
    by_cases h : hd.2.compiledRegexp.isSome
    · simp only [List.filter_cons, h, if_true, List.foldl_cons]
      exact ih (replacerStep st hd)
    · have hn : hd.2.compiledRegexp = none := Option.not_isSome_iff_eq_none.mp h
      simp only [List.filter_cons, h, Bool.false_eq_true, if_false, List.foldl_cons,
        replacerStep_skip st hd hn]
      exact ih st

theorem replacerStep_changed_iff (st : RState) (ir : Nat × Rule)
    (h : st.changed = true ↔ st.changes ≠ []) :
    (replacerStep st ir).changed = true ↔ (replacerStep st ir).changes ≠ [] := by
  unfold replacerStep
  split
  · exact h
  · split
    · simp
    · exact h

theorem foldl_changed_iff (l : List (Nat × Rule)) (st : RState)
    (h : st.changed = true ↔ st.changes ≠ []) :
    (l.foldl replacerStep st).changed = true ↔ (l.foldl replacerStep st).changes ≠ [] := by
  induction l generalizing st with
  | nil => exact h
  | cons hd tl ih => exact ih _ (replacerStep_changed_iff st hd h)

theorem replacerStep_changes_compiled (st : RState) (ir : Nat × Rule)
    (h : ∀ c ∈ st.changes, c.rule.compiledRegexp.isSome = true) :
    ∀ c ∈ (replacerStep st ir).changes, c.rule.compiledRegexp.isSome = true := by
  unfold replacerStep
  split
  · exact h
  · next hn =>
    split
    · intro c hc
      rcases List.mem_append.mp hc with h1 | h2
      · exact h c h1
      · have := List.mem_singleton.mp h2
        subst this
        exact Option.isSome_iff_ne_none.mpr hn
    · exact h

theorem foldl_changes_compiled (l : List (Nat × Rule)) (st : RState)
    (h : ∀ c ∈ st.changes, c.rule.compiledRegexp.isSome = true) :
    ∀ c ∈ (l.foldl replacerStep st).changes, c.rule.compiledRegexp.isSome = true := by
  induction l generalizing st with
  | nil => exact h
  | cons hd tl ih => exact ih _ (replacerStep_changes_compiled st hd h)

/-- A buffer every listed rule leaves unchanged passes through the whole
rule loop untouched (state included). -/
theorem foldl_replacerStep_fixed (t1 : Str) :
    ∀ (l : List (Nat × Rule)) (st : RState), st.working = t1 →
      (∀ p ∈ l, ruleReplaceString p.2 t1 = t1) → l.foldl replacerStep st = st
  | [], _, _, _ => rfl
  | hd :: tl, st, hw, hfix => by
    have hfixhd : ruleReplaceString hd.2 st.working = st.working := by
      rw [hw]
      exact hfix hd (List.mem_cons_self _ _)
    have hstep : replacerStep st hd = st := by
      unfold replacerStep
      split
      · rfl
      · rw [if_neg (fun hne => hne hfixhd.symm)]
    rw [List.foldl_cons, hstep]
    exact foldl_replacerStep_fixed t1 tl st hw (fun p hp => hfix p (List.mem_cons_of_mem _ hp))

/-- Every entry of the modelled rule map carries its own `expected` as key. -/
def keyInv (m : List (Str × Rule)) : Prop := ∀ p ∈ m, p.2.expected = p.1

/-- The modelled rule map never holds two entries with the same key. -/
def keysNodup (m : List (Str × Rule)) : Prop := (m.map Prod.fst).Nodup

theorem keyInv_mapInsert : ∀ (m : List (Str × Rule)) (k : Str) (v : Rule),
    keyInv m → v.expected = k → keyInv (mapInsert m k v)
  | [], k, v, _, hv => by
    intro p hp
    rw [mapInsert] at hp
    have := List.mem_singleton.mp hp
    subst this
    exact hv
  | (k', v') :: tl, k, v, hm, hv => by
    intro p hp
    rw [mapInsert] at hp
    by_cases hk : k' = k
    · rw [if_pos hk] at hp
      rcases List.mem_cons.mp hp with h1 | h2
      · subst h1
        simpa [hk] using hv
      · exact hm p (List.mem_cons_of_mem _ h2)
    · rw [if_neg hk] at hp
      rcases List.mem_cons.mp hp with h1 | h2
      · subst h1
        exact hm (k', v') (List.mem_cons_self _ _)
      · exact keyInv_mapInsert tl k v (fun q hq => hm q (List.mem_cons_of_mem _ hq)) hv p h2

theorem mem_keys_mapInsert : ∀ (m : List (Str × Rule)) (k : Str) (v : Rule) (x : Str),
    x ∈ (mapInsert m k v).map Prod.fst → x ∈ m.map Prod.fst ∨ x = k
  | [], k, v, x, hx => by
    rw [mapInsert] at hx
    simp at hx
    exact Or.inr hx
  | (k', v') :: tl, k, v, x, hx => by
    rw [mapInsert] at hx
    by_cases hk : k' = k
    · rw [if_pos hk] at hx
      simp only [List.map_cons, List.mem_cons] at hx ⊢
      exact hx.imp id id |>.elim (fun h => Or.inl (Or.inl h)) (fun h => Or.inl (Or.inr h))
    · rw [if_neg hk] at hx
      simp only [List.map_cons, List.mem_cons] at hx ⊢
      rcases hx with h1 | h2
      · exact Or.inl (Or.inl h1)
      · rcases mem_keys_mapInsert tl k v x h2 with h3 | h4
        · exact Or.inl (Or.inr h3)
        · exact Or.inr h4

theorem keysNodup_mapInsert : ∀ (m : List (Str × Rule)) (k : Str) (v : Rule),
    keysNodup m → keysNodup (mapInsert m k v)
  | [], k, v, _ => by
    rw [keysNodup, mapInsert]
    simp
  | (k', v') :: tl, k, v, hm => by
    rw [keysNodup, mapInsert]
    rw [keysNodup] at hm
    simp only [List.map_cons, List.nodup_cons] at hm
    by_cases hk : k' = k
    · rw [if_pos hk]
      simp only [List.map_cons, List.nodup_cons]
      exact hm
    · rw [if_neg hk]
      simp only [List.map_cons, List.nodup_cons]
      refine ⟨fun hx => ?_, keysNodup_mapInsert tl k v hm.2⟩
      rcases mem_keys_mapInsert tl k v k' hx with h1 | h2
      · exact hm.1 h1
      · exact hk h2

/-- Values of a key-respecting map with no entry keyed `k` contribute
nothing to a filter by `expected = k`. -/
theorem filter_values_nil : ∀ (m : List (Str × Rule)) (k : Str),
    (∀ p ∈ m, p.1 ≠ k) → keyInv m →
    (m.map Prod.snd).filter (fun r => decide (r.expected = k)) = []
  | [], _, _, _ => rfl
  | (k', v') :: tl, k, hne, hinv => by
    have h1 : v'.expected = k' := hinv (k', v') (List.mem_cons_self _ _)
    have h2 : k' ≠ k := hne (k', v') (List.mem_cons_self _ _)
    simp only [List.map_cons, List.filter_cons]
    rw [h1]
    simp only [h2, decide_eq_true_eq, if_neg h2]
    exact filter_values_nil tl k (fun p hp => hne p (List.mem_cons_of_mem _ hp))
      (fun p hp => hinv p (List.mem_cons_of_mem _ hp))

/-- After inserting `v` under its own key `k`, filtering the values by
`expected = k` yields exactly `[v]`. -/
theorem filter_values_mapInsert_self : ∀ (m : List (Str × Rule)) (k : Str) (v : Rule),
    keyInv m → keysNodup m → v.expected = k →
    ((mapInsert m k v).map Prod.snd).filter (fun r => decide (r.expected = k)) = [v]
  | [], k, v, _, _, hv => by
    rw [mapInsert]
    simp [hv]
  | (k', v') :: tl, k, v, hinv, hnd, hv => by
    rw [keysNodup] at hnd
    simp only [List.map_cons, List.nodup_cons] at hnd
    by_cases hk : k' = k
    · rw [mapInsert, if_pos hk]
      have hfil : (tl.map Prod.snd).filter (fun r => decide (r.expected = k)) = [] := by
        refine filter_values_nil tl k (fun p hp h => ?_)
          (fun p hp => hinv p (List.mem_cons_of_mem _ hp))
        have hmem : p.1 ∈ List.map Prod.fst tl := List.mem_map_of_mem Prod.fst hp
        rw [h, ← hk] at hmem
        exact hnd.1 hmem
      simp [List.filter_cons, hv, hfil]
    · rw [mapInsert, if_neg hk]
      have h1 : v'.expected = k' := hinv (k', v') (List.mem_cons_self _ _)
      simp only [List.map_cons, List.filter_cons]
      rw [h1]
      simp only [decide_eq_true_eq, if_neg hk]
      exact filter_values_mapInsert_self tl k v
        (fun p hp => hinv p (List.mem_cons_of_mem _ hp)) hnd.2 hv

/-- Inserting under key `k` does not disturb the values filtered by a
different key `k2`. -/
theorem filter_values_mapInsert_other : ∀ (m : List (Str × Rule)) (k : Str) (v : Rule) (k2 : Str),
    keyInv m → v.expected = k → k2 ≠ k →
    ((mapInsert m k v).map Prod.snd).filter (fun r => decide (r.expected = k2)) =
      (m.map Prod.snd).filter (fun r => decide (r.expected = k2))
  | [], k, v, k2, _, hv, hne => by
    rw [mapInsert]
    simp only [List.map_cons, List.map_nil, List.filter_cons, hv]
    simp [Ne.symm hne]
  | (k', v') :: tl, k, v, k2, hinv, hv, hne => by
    have h1 : v'.expected = k' := hinv (k', v') (List.mem_cons_self _ _)
    by_cases hk : k' = k
    · rw [mapInsert, if_pos hk]
      simp only [List.map_cons, List.filter_cons, hv, h1, hk]
      simp [Ne.symm hne]
    · rw [mapInsert, if_neg hk]
      simp only [List.map_cons, List.filter_cons]
      rw [filter_values_mapInsert_other tl k v k2
        (fun p hp => hinv p (List.mem_cons_of_mem _ hp)) hv hne]

theorem getLast?_cons_of_ne_nil (x : α) : ∀ (l : List α), l ≠ [] →
    (x :: l).getLast? = l.getLast?
  | [], h => absurd rfl h
  | _ :: _, _ => List.getLast?_cons_cons

/-- Folding a rule list into the map and then filtering the values by a
key retrieves the last rule carrying that key (or falls back to the map's
previous content). -/
theorem filter_values_insRules : ∀ (rs : List Rule) (m : List (Str × Rule)) (k : Str),
    keyInv m → keysNodup m →
    ((rs.foldl (fun m' r => mapInsert m' r.expected r) m).map Prod.snd).filter
        (fun r => decide (r.expected = k)) =
      ((rs.filter (fun r => decide (r.expected = k))).getLast?).elim
        ((m.map Prod.snd).filter (fun r => decide (r.expected = k))) (fun r => [r])
  | [], m, k, _, _ => rfl
  | r :: rest, m, k, hinv, hnd => by
    rw [List.foldl_cons,
      filter_values_insRules rest (mapInsert m r.expected r) k
        (keyInv_mapInsert m r.expected r hinv rfl) (keysNodup_mapInsert m r.expected r hnd)]
    rcases hrf : (rest.filter (fun r => decide (r.expected = k))).getLast? with _ | r'
    · have hrnil : rest.filter (fun r => decide (r.expected = k)) = [] :=
        List.getLast?_eq_none_iff.mp hrf
      by_cases hke : r.expected = k
      · subst hke
        rw [List.filter_cons, if_pos (by simp), hrnil]
        simp only [List.getLast?_singleton, Option.elim]
        exact filter_values_mapInsert_self m r.expected r hinv hnd rfl
      · rw [List.filter_cons, if_neg (by simpa using hke), hrnil]
        simp only [List.getLast?_nil, Option.elim]
        exact filter_values_mapInsert_other m r.expected r k hinv rfl
          (fun h => hke h.symm)
    · have hrne : rest.filter (fun r => decide (r.expected = k)) ≠ [] := by
        intro h
        rw [h] at hrf
        exact Option.noConfusion hrf
      by_cases hke : r.expected = k
      · rw [List.filter_cons, if_pos (by simpa using hke),
          getLast?_cons_of_ne_nil r _ hrne, hrf]
        rfl
      · rw [List.filter_cons, if_neg (by simpa using hke), hrf]
        rfl

theorem foldl_appendRules_init : ∀ (configs : List Config) (init : List Rule),
    configs.foldl (fun acc c => acc ++ c.rules) init =
      init ++ configs.foldl (fun acc c => acc ++ c.rules) []
  | [], init => by simp
  | c :: cs, init => by
    rw [List.foldl_cons, List.foldl_cons, foldl_appendRules_init cs (init ++ c.rules),
      foldl_appendRules_init cs ([] ++ c.rules)]
    simp

/-- The double fold of `MergeConfigs` over configs and their rules equals a
single fold over the concatenation of all rule lists. -/
theorem ruleMap_flatten : ∀ (configs : List Config) (m : List (Str × Rule)),
    configs.foldl (fun m' c => c.rules.foldl (fun m'' r => mapInsert m'' r.expected r) m') m =
      (configs.foldl (fun acc c => acc ++ c.rules) []).foldl
        (fun m' r => mapInsert m' r.expected r) m
  | [], _ => rfl
  | c :: cs, m => by
    rw [List.foldl_cons, List.foldl_cons,
      ruleMap_flatten cs (c.rules.foldl (fun m'' r => mapInsert m'' r.expected r) m),
      List.nil_append, foldl_appendRules_init cs c.rules, List.foldl_append]

/-- The left-to-right reassembly fold in `Rule.ReplaceString`'s
context-exclusion branch computes the spec-side segment assembly. -/
theorem ignoreFold_eq_assemble (ig : Re) (expected : Str) (text : Str) :
    ∀ (ms : List (Nat × Nat)) (pre : Str) (last : Nat),
    ((ms.foldl (ignoreStep ig expected text) (pre, last)).1
      ++ text.drop ((ms.foldl (ignoreStep ig expected text) (pre, last)).2))
      = pre ++ prefixExclAssemble ig expected text ms last
  | [], pre, last => rfl
  | (b, e) :: rest, pre, last => by
    rw [List.foldl_cons]
    by_cases hmB : matchB ig (text.take b) = true
    · have hstep : ignoreStep ig expected text (pre, last) (b, e)
          = (pre ++ (extract text last b ++ extract text b e), e) := by
        simp [ignoreStep, hmB, List.append_assoc]

      rw [hstep, ignoreFold_eq_assemble ig expected text rest _ e, prefixExclAssemble]
      simp [hmB, List.append_assoc]
    · have hstep : ignoreStep ig expected text (pre, last) (b, e)
          = (pre ++ (extract text last b ++ expected), e) := by
        simp [ignoreStep, hmB, List.append_assoc]
      rw [hstep, ignoreFold_eq_assemble ig expected text rest _ e, prefixExclAssemble]
      simp [hmB, List.append_assoc]

/-! ### Concrete instances used by the claims -/

def apiRule0 : Rule := mkRule (str ("API"))

def apiRule : Rule := (compilePattern apiRule0).toOption.getD apiRule0

def opRule0 : Rule :=
  { mkRule (str ("運用担当者")) with
    patterns := [str ("オペレーター"), str ("オペレータ")],
    ignorePatternBefore := str ("Kubernetes\\s+") }

def opRule : Rule := (compilePattern opRule0).toOption.getD opRule0

def opRe : Re := mustRe (str ("オペレーター|オペレータ"))

def opIg : Re := mustRe (str ("Kubernetes\\s+$"))

def jqRule0 : Rule := { mkRule (str ("jQuery")) with pattern := str ("jquery") }

def jqRule : Rule := (compilePattern jqRule0).toOption.getD jqRule0

def jqConfig : Config := { version := 1, rules := [jqRule], sourcePaths := [] }

def abRule0 : Rule := { mkRule (str ("ba")) with pattern := str ("ab") }

def abRule : Rule := (compilePattern abRule0).toOption.getD abRule0

def abConfig : Config := { version := 1, rules := [abRule], sourcePaths := [] }

def ruleR1a : Rule := { mkRule (str ("Rule1")) with pattern := str ("from-first") }

def ruleR2b : Rule := { mkRule (str ("Rule2")) with pattern := str ("from-second") }

def ruleR1b : Rule := { mkRule (str ("Rule1")) with pattern := str ("from-second") }

def cfgFirst : Config :=
  { version := 1, rules := [ruleR1a], sourcePaths := [str ("config1.yml")] }

def cfgSecond : Config :=
  { version := 1, rules := [ruleR2b, ruleR1b], sourcePaths := [str ("config2.yml")] }

/-- Text with no structured spans at all. -/
def plainText : Str := str ("no structured spans here")

/-- Nested same-name shortcodes, one level deep. -/
def nestedShortcodeText : Str :=
  str ("\x7b\x7b< note >\x7d\x7da\x7b\x7b< note >\x7d\x7db\x7b\x7b< /note >\x7d\x7dc\x7b\x7b< /note >\x7d\x7d")

/-- Adjacent code spans directly followed by a link. -/
def adjacentSpansText : Str := str ("`a``b`[x](y)")

/-- An input that already contains a placeholder-shaped token. -/
def collidingText : Str := str ("`x` and ___MARKDOWN_CODE_SPAN_1___")

/-- jquery occurring only inside a paired shortcode's body. -/
def shortcodeBodyText : Str := str ("\x7b\x7b< note >\x7d\x7djquery\x7b\x7b< /note >\x7d\x7d")

/-- jquery in plain prose, in a fenced code block, and in a paired
shortcode body. -/
def mixedSpansText : Str :=
  str ("jquery\n```\njquery\n```\n\x7b\x7b< note >\x7d\x7djquery\x7b\x7b< /note >\x7d\x7d")

/-- Copy of `mixedSpansText` with only the bare occurrence substituted. -/
def mixedSpansExpected : Str :=
  str ("jQuery\n```\njquery\n```\n\x7b\x7b< note >\x7d\x7djquery\x7b\x7b< /note >\x7d\x7d")

/-- A buffer the jquery rule maps to a fixed point of itself. -/
def jqFixedText : Str := str ("jquery is here")

/-! ### Claim theorems -/

/-- C1, counterexample: `RestoreShortcodes (PreserveShortcodes text)` is
not the identity for every input text.  An input already containing a
placeholder-shaped token is corrupted: protecting the code span of
`collidingText` stores it under the very token the input also carries, and
restoration substitutes both occurrences.  The placeholder map here is a
singleton, so this is independent of the map iteration order. -/
theorem c1_roundtrip_counterexample :
    restoreShortcodes (preserveShortcodes collidingText).1 (preserveShortcodes collidingText).2
      ≠ collidingText := by decide

/-- C1, amended: restoring immediately after protecting reproduces the
input exactly on the three families the claim names — text with no
structured spans, nested same-name shortcodes one level deep, and adjacent
code spans and links — and does so under every iteration order of the
placeholder map; the identity only fails for inputs that already carry
placeholder-shaped tokens (see the counterexample). -/
theorem c1_roundtrip_amended :
    ((allPerms (preserveShortcodes plainText).2).all
      (fun l => restoreShortcodes (preserveShortcodes plainText).1 l == plainText)) = true ∧
    ((allPerms (preserveShortcodes nestedShortcodeText).2).all
      (fun l => restoreShortcodes (preserveShortcodes nestedShortcodeText).1 l
        == nestedShortcodeText)) = true ∧
    ((allPerms (preserveShortcodes adjacentSpansText).2).all
      (fun l => restoreShortcodes (preserveShortcodes adjacentSpansText).1 l
        == adjacentSpansText)) = true :=
  ⟨by decide, by decide, by decide⟩

/-- C2, counterexample: with the rule jquery → jQuery the engine leaves an
occurrence of jquery inside a paired Hugo shortcode's body unchanged —
`PreserveShortcodes` masks the whole shortcode span, body included, before
any rule runs — contradicting the claim that the body occurrence is
altered.  The second conjunct shows the rule is not vacuous. -/
theorem c2_shortcode_body_counterexample :
    (replacerReplaceString jqConfig shortcodeBodyText).result = shortcodeBodyText ∧
    (replacerReplaceString jqConfig (str ("jquery"))).result = str ("jQuery") :=
  ⟨rfl, rfl⟩

/-- C2, amended: the jquery → jQuery rule alters neither the occurrence
inside a fenced code block nor the one inside a paired shortcode's body
(both spans are masked during the rule pass), while the occurrence in
plain prose is substituted. -/
theorem c2_span_protection :
    (replacerReplaceString jqConfig mixedSpansText).result = mixedSpansExpected := rfl

/-- C4: compiling a rule whose spec has only `expected = "API"` yields a
matcher accepting "api", "Api", "ＡＰＩ" and "ａｐｉ", and applying the
rule rewrites each such occurrence — alone or all four in one buffer — to
"API". -/
theorem c4_case_width_fold :
    compilePattern apiRule0 = Except.ok apiRule ∧
    (apiRule.compiledRegexp.map (fun re =>
      [matchB re (str ("api")), matchB re (str ("Api")),
       matchB re (str ("ＡＰＩ")), matchB re (str ("ａｐｉ"))])) = some [true, true, true, true] ∧
    ruleReplaceString apiRule (str ("api")) = str ("API") ∧
    ruleReplaceString apiRule (str ("Api")) = str ("API") ∧
    ruleReplaceString apiRule (str ("ＡＰＩ")) = str ("API") ∧
    ruleReplaceString apiRule (str ("ａｐｉ")) = str ("API") ∧
    ruleReplaceString apiRule (str ("api Api ＡＰＩ ａｐｉ")) = str ("API API API API") :=
  ⟨rfl, rfl, rfl, rfl, rfl, rfl, rfl⟩

/-- C5: the 運用担当者 rule with patterns オペレーター/オペレータ and
`ignorePatternBefore = "Kubernetes\s+"` leaves a Kubernetes-prefixed
occurrence untouched and rewrites an unprefixed one. -/
theorem c5_context_exclusion :
    compilePattern opRule0 = Except.ok opRule ∧
    ruleReplaceString opRule (str ("Kubernetes オペレーターは重要です。"))
      = str ("Kubernetes オペレーターは重要です。") ∧
    ruleReplaceString opRule (str ("これはオペレーターの仕事です。"))
      = str ("これは運用担当者の仕事です。") :=
  ⟨rfl, rfl, rfl⟩

/-- C10: compiling a rule with empty `expected`, `pattern` and `patterns`
always fails with the error "no pattern or expected value specified"; on
this error path `CompilePattern` returns before assigning
`compiledRegexp`, so the rule is left without a compiled matcher. -/
theorem c10_empty_rule_error (r : Rule) (hp : r.pattern = []) (hps : r.patterns = [])
    (he : r.expected = []) :
    compilePattern r = Except.error (str ("no pattern or expected value specified")) := by
  simp [compilePattern, hp, hps, he]

/-- C10 witness: the error at the concrete all-empty rule. -/
theorem c10_witness :
    compilePattern (mkRule []) = Except.error (str ("no pattern or expected value specified")) :=
  c10_empty_rule_error (mkRule []) rfl rfl rfl

/-- C9: for every config and input text, the `ReplaceResult` of
`Replacer.ReplaceString` has `Changed = true` exactly when its `Changes`
list is non-empty, and its `Original` field is the input text verbatim. -/
theorem c9_result_invariants (cfg : Config) (text : Str) :
    ((replacerReplaceString cfg text).changed = true ↔
      (replacerReplaceString cfg text).changes ≠ []) ∧
    (replacerReplaceString cfg text).original = text :=
  ⟨foldl_changed_iff cfg.rules.enum
      { working := (preserveShortcodes text).1, changed := false, changes := [] } (by simp),
    rfl⟩

/-- C8: for every config and text, a rule whose compiled matcher is absent
is skipped — running the pipeline equals running it with all matcher-less
rules dropped from the (index-preserving) enumerated rule list, so such a
rule contributes no buffer change and no `Change` record while the
remaining rules still run; every recorded change indeed belongs to a rule
with a compiled matcher.  `replacerReplaceString` is a total function, so
a `ReplaceResult` is returned in all cases. -/
theorem c8_nil_matcher_skipped (cfg : Config) (text : Str) :
    replacerReplaceString cfg text = replacerReplaceStringFiltered cfg text ∧
    ∀ c ∈ (replacerReplaceString cfg text).changes, c.rule.compiledRegexp.isSome = true :=
  ⟨by simp only [replacerReplaceString, replacerReplaceStringFiltered, foldl_replacerStep_filter],
    foldl_changes_compiled cfg.rules.enum
      { working := (preserveShortcodes text).1, changed := false, changes := [] }
      (fun c hc => absurd hc (List.not_mem_nil c))⟩

/-- C3: merging configs deduplicates rules by their `expected` value with
later-listed rules replacing earlier ones: for any config list and key,
filtering the merged rules by that `expected` yields exactly the last rule
with that value in the concatenation of all rule lists (or nothing).  In
particular, merging a config holding a rule expecting "Rule1" with a
second config holding rules expecting "Rule2" and "Rule1" yields exactly
two rules, with the "Rule1" rule taken from the second config (the rules
carry distinguishing `pattern` tags to make the origin observable). -/
theorem c3_merge_override :
    (∀ (configs : List Config) (k : Str),
      (mergeConfigs configs).rules.filter (fun r => decide (r.expected = k)) =
        ((configs.foldl (fun acc c => acc ++ c.rules) []).filter
          (fun r => decide (r.expected = k))).getLast?.toList) ∧
    (mergeConfigs [cfgFirst, cfgSecond]).rules.length = 2 ∧
    (mergeConfigs [cfgFirst, cfgSecond]).rules.filter
      (fun r => decide (r.expected = str ("Rule1"))) = [ruleR1b] ∧
    (mergeConfigs [cfgFirst, cfgSecond]).rules.filter
      (fun r => decide (r.expected = str ("Rule2"))) = [ruleR2b] := by
  refine ⟨?_, by decide, by decide, by decide⟩
  intro configs k
  match configs with
  | [] => rfl
  | c0 :: cs =>
    simp only [mergeConfigs]
    rw [ruleMap_flatten (c0 :: cs) [],
      filter_values_insRules ((c0 :: cs).foldl (fun acc c => acc ++ c.rules) []) [] k
        (fun p hp => absurd hp (List.not_mem_nil p)) (by simp [keysNodup])]
    rcases hL : (((c0 :: cs).foldl (fun acc c => acc ++ c.rules) []).filter
        (fun r => decide (r.expected = k))).getLast? with _ | r'
    · rw [hL]
      rfl
    · rw [hL]
      rfl

/-- C6: (a) the compiled context-exclusion expression is the given
`ignorePatternBefore` with `$` appended exactly when the pattern does not
end in `$`, contains no `$` and contains no `|`; (b) `CompilePattern`
stores the matcher compiled from that anchored string; (c) at replacement
time the exclusion matcher is evaluated against the entire prefix of the
buffer from position 0 to each candidate match start — `Rule.ReplaceString`
computes exactly the spec-side single-pass assembly whose per-match
decision is `matchB ig (text.take start)`, not any fixed-width lookback. -/
theorem c6_exclusion_anchor_and_context :
    (∀ p : Str, anchorIgnorePat p = p ++ str ("$") ↔
      (strHasSuffix p (str ("$")) = false ∧ strContains p (str ("$")) = false ∧
        strContains p (str ("|")) = false)) ∧
    (∀ (r r' : Rule), r.ignorePatternBefore ≠ [] → compilePattern r = Except.ok r' →
      r'.compiledIgnoreBefore = parseRe (anchorIgnorePat r.ignorePatternBefore)) ∧
    (∀ (r : Rule) (re ig : Re) (text : Str),
      r.compiledRegexp = some re → r.compiledIgnoreBefore = some ig →
      ruleReplaceString r text = prefixExclusionSpec re ig r.expected text) := by
  refine ⟨?_, ?_, ?_⟩
  · intro p
    unfold anchorIgnorePat
    by_cases h : (!(strHasSuffix p (str ("$"))) && !(strContains p (str ("$")))
        && !(strContains p (str ("|")))) = true
    · rw [if_pos h]
      simp only [Bool.and_eq_true, Bool.not_eq_true'] at h
      exact ⟨fun _ => ⟨h.1.1, h.1.2, h.2⟩, fun _ => rfl⟩
    · rw [if_neg h]
      constructor
      · intro heq
        have hlen := congrArg List.length heq
        simp [str] at hlen
      · rintro ⟨h1, h2, h3⟩
        exact absurd (by simp [h1, h2, h3]) h
  · intro r r' hig h
    simp only [compilePattern] at h
    split at h
    · exact Except.noConfusion h
    · split at h
      · exact Except.noConfusion h
      · split at h
        · next heq =>
          split at h
          · exact Except.noConfusion h
          · next hps =>
            cases h
            rw [hps]
        · exact absurd (not_not.mp (by assumption)) (by simpa using hig)
  · intro r re ig text hre hig2
    unfold ruleReplaceString
    rw [hre, hig2]
    exact ignoreFold_eq_assemble ig r.expected text (findAllIdx re text) [] 0

/-- C6 witness: the three parts instantiated on the 運用担当者 rule — the
anchored pattern, the stored exclusion matcher, and the prefix-based
assembly on a concrete buffer. -/
theorem c6_witness :
    anchorIgnorePat (str ("Kubernetes\\s+")) = str ("Kubernetes\\s+") ++ str ("$") ∧
    opRule.compiledIgnoreBefore = parseRe (anchorIgnorePat opRule0.ignorePatternBefore) ∧
    ruleReplaceString opRule (str ("これはオペレーターの仕事です。"))
      = prefixExclusionSpec opRe opIg opRule.expected (str ("これはオペレーターの仕事です。")) :=
  ⟨(c6_exclusion_anchor_and_context.1 (str ("Kubernetes\\s+"))).mpr (by decide),
    c6_exclusion_anchor_and_context.2.1 opRule0 opRule (by decide) (by rfl),
    c6_exclusion_anchor_and_context.2.2 opRule opRe opIg (str ("これはオペレーターの仕事です。"))
      (by rfl) (by rfl)⟩

/-- C7, counterexample: the claim's hypothesis — no rule's `expected`
value is matched by any rule's own compiled pattern — holds for the rule
`pattern "ab" → expected "ba"` (the matcher rejects "ba", which is even a
fixed point of the rule), yet applying the engine twice to "aab" gives
"baa" while applying it once gives "aba": the first pass manufactures a
fresh match across the replacement boundary. -/
theorem c7_idempotence_counterexample :
    (abRule.compiledRegexp.map (fun re => matchB re (str ("ba")))) = some false ∧
    ruleReplaceString abRule (str ("ba")) = str ("ba") ∧
    (replacerReplaceString abConfig (str ("aab"))).result = str ("aba") ∧
    (replacerReplaceString abConfig
      ((replacerReplaceString abConfig (str ("aab"))).result)).result = str ("baa") ∧
    str ("baa") ≠ str ("aba") :=
  ⟨rfl, rfl, rfl, rfl, by decide⟩

/-- C7, amended: applying the engine a second time reproduces the first
result provided the first result is genuinely quiescent — protection finds
no spans in it and every rule maps it to itself.  (The claim's weaker
hypothesis, that canonical forms are fixed points, does not suffice; see
the counterexample.) -/
theorem c7_idempotent_of_fixed (cfg : Config) (text : Str)
    (hpr : preserveShortcodes ((replacerReplaceString cfg text).result)
      = ((replacerReplaceString cfg text).result, []))
    (hfix : ∀ r ∈ cfg.rules,
      ruleReplaceString r ((replacerReplaceString cfg text).result)
        = (replacerReplaceString cfg text).result) :
    (replacerReplaceString cfg ((replacerReplaceString cfg text).result)).result
      = (replacerReplaceString cfg text).result := by
  generalize ht : (replacerReplaceString cfg text).result = t1 at hpr hfix ⊢
  have h1 : (preserveShortcodes t1).1 = t1 := by rw [hpr]
  have h2 : (preserveShortcodes t1).2 = [] := by rw [hpr]
  show (replacerReplaceString cfg t1).result = t1
  simp only [replacerReplaceString, h1, h2]
  rw [foldl_replacerStep_fixed t1 cfg.rules.enum
    { working := t1, changed := false, changes := [] } rfl
    (fun p hp => hfix p.2 (snd_mem_enum cfg.rules p hp))]
  rfl

/-- C7 witness: the jquery rule on "jquery is here" — the first pass's
output "jQuery is here" is span-free and fixed by the rule, and the second
pass reproduces it. -/
theorem c7_witness :
    (replacerReplaceString jqConfig
      ((replacerReplaceString jqConfig jqFixedText).result)).result
      = (replacerReplaceString jqConfig jqFixedText).result :=
  c7_idempotent_of_fixed jqConfig jqFixedText (by rfl)
    (by
      intro r hr
      have hr' := List.mem_singleton.mp hr
      subst hr'
      rfl)

end Grh
